import Mathlib

/-!
Verification of `apps/common/utils/crypto.py` (jumpserver).

Modelling conventions, shared by all definitions below:

* Python `bytes` values are `List Nat` with every element `< 256`.
* Python `str` values that only ever carry ASCII (base64 output, envelope
  slicing) are also `List Nat` of their character codes; a plaintext `str`
  is represented by its UTF-8 byte sequence, so `bytes(text, 'utf-8')` and
  `bytes.decode('utf-8')` are the identity in the model.
* a raised Python exception is `Except.error` carrying a `PyErr` naming the
  exception class; `PyErr.caughtByFallback` is true exactly for the classes
  matched by `except (TypeError, ValueError, UnicodeDecodeError)` in
  `Crypto.decrypt` (`binascii.Error` and the MAC-check failure of
  pycryptodome are `ValueError` subclasses, `UnicodeDecodeError` is listed
  in the tuple itself).
* the AES/SM2 primitives are external black boxes; they enter the model as
  function parameters (`GCMPrim`, and the `E`/`D` parameters of the ECB
  codec) and theorems carry their contracts (length of the tag, inverse
  property) as hypotheses.
-/

/-- Python exception classes appearing in the module, named by class. -/
inductive PyErr where
  | typeError
  | valueError
  | binasciiError
  | macCheckFailed
  | unicodeDecodeError
  | improperlyConfigured
  | unboundLocalError
  | indexError
  | otherError
  deriving DecidableEq, Repr

/-- The classes caught by `except (TypeError, ValueError, UnicodeDecodeError)`
in `Crypto.decrypt`: `binascii.Error` (malformed base64) and the
`ValueError("MAC check failed")` of pycryptodome are subclasses of
`ValueError`; `UnicodeDecodeError` is named explicitly in the tuple. -/
def PyErr.caughtByFallback : PyErr → Bool
  | .typeError => true
  | .valueError => true
  | .binasciiError => true
  | .macCheckFailed => true
  | .unicodeDecodeError => true
  | _ => false

namespace base64

/-- The base64 alphabet: sextet index to ASCII code
(`A-Z`, `a-z`, `0-9`, `+`, `/`). -/
def sextetChar (s : Nat) : Nat :=
  if s < 26 then 65 + s
  else if s < 52 then 97 + (s - 26)
  else if s < 62 then 48 + (s - 52)
  else if s = 62 then 43
  else 47

/-- ASCII code back to the sextet index; `none` outside the alphabet. -/
def charSextet (c : Nat) : Option Nat :=
  if 65 ≤ c ∧ c ≤ 90 then some (c - 65)
  else if 97 ≤ c ∧ c ≤ 122 then some (c - 97 + 26)
  else if 48 ≤ c ∧ c ≤ 57 then some (c - 48 + 52)
  else if c = 43 then some 62
  else if c = 47 then some 63
  else none

/-- `base64.b64encode`: three bytes to four characters, with `=` (code 61)
padding the final one- or two-byte group.  `base64.encodebytes` followed by
`.replace(chr(10), str())` (as `AESCrypto.encrypt` does) produces exactly
this newline-free encoding. -/
def b64encode : List Nat → List Nat
  | a :: b :: c :: rest =>
      sextetChar (a / 4) :: sextetChar (a % 4 * 16 + b / 16) ::
      sextetChar (b % 16 * 4 + c / 64) :: sextetChar (c % 64) :: b64encode rest
  | [a, b] => [sextetChar (a / 4), sextetChar (a % 4 * 16 + b / 16),
      sextetChar (b % 16 * 4), 61]
  | [a] => [sextetChar (a / 4), sextetChar (a % 4 * 16), 61, 61]
  | [] => []

/-- `base64.b64decode` on inputs made of alphabet characters and trailing
`=` padding: four characters to three bytes, a trailing `xy==` group to one
byte and `xyz=` to two.  Like CPython's (non-strict) `binascii.a2b_base64`,
the low bits of the character before the padding are ignored rather than
required to be zero.  Inputs whose length is not a multiple of four, or
with a character outside the alphabet, fail (`binascii.Error`). -/
def b64decode : List Nat → Option (List Nat)
  | [] => some []
  | c1 :: c2 :: c3 :: c4 :: rest =>
    match charSextet c1, charSextet c2 with
    | some s1, some s2 =>
      if c3 = 61 then
        if c4 = 61 ∧ rest = [] then some [s1 * 4 + s2 / 16] else none
      else
        match charSextet c3 with
        | some s3 =>
          if c4 = 61 then
            if rest = [] then some [s1 * 4 + s2 / 16, s2 % 16 * 16 + s3 / 4]
            else none
          else
            match charSextet c4, b64decode rest with
            | some s4, some tail =>
                some ((s1 * 4 + s2 / 16) :: (s2 % 16 * 16 + s3 / 4) ::
                  (s3 % 4 * 64 + s4) :: tail)
            | _, _ => none
        | none => none
    | _, _ => none
  | _ => none

end base64

/-- `bytes.rstrip(chr(0).encode())`: drop the trailing zero bytes. -/
def rstripZero (l : List Nat) : List Nat :=
  (l.reverse.dropWhile (· == 0)).reverse

namespace AESCrypto

/-- `AESCrypto.to_16`: UTF-8 bytes of the argument, zero-padded to a
multiple of 16.  The source loop appends one zero byte per iteration while
`len(key) % 16 != 0`; in closed form it appends `(16 - len % 16) % 16`
zero bytes. -/
def to_16 (key : List Nat) : List Nat :=
  key ++ List.replicate ((16 - key.length % 16) % 16) 0

/-- `AESCrypto.__init__`: truncate the secret to its first 32 characters,
then `to_16`.  The stored `self.key` handed to `AES.new`. -/
def keyInit (key : List Nat) : List Nat :=
  to_16 (key.take 32)

/-- `AESCrypto.encrypt`, with the AES-ECB block operation on the derived
key abstracted as `E` (an external primitive): pad the plaintext with
`to_16`, cipher, `base64.encodebytes`, drop the newlines the encoder
inserts (together: `base64.b64encode`). -/
def encrypt (E : List Nat → List Nat) (text : List Nat) : List Nat :=
  base64.b64encode (E (to_16 text))

/-- `AESCrypto.decrypt`, with the AES-ECB inverse block operation
abstracted as `D`: base64-decode (raising `binascii.Error` on malformed
input), decipher, right-strip trailing zero bytes, UTF-8 decode (identity
on the byte model). -/
def decrypt (D : List Nat → List Nat) (text : List Nat) :
    Except PyErr (List Nat) :=
  match base64.b64decode text with
  | none => .error .binasciiError
  | some b => .ok (rstripZero (D b))

end AESCrypto

namespace AESCryptoGCM

/-- `Crypto.Util.Padding.pad(data, 32)` with the default pkcs7 style:
append `32 - len % 32` bytes, each equal to that count. -/
def pad (data : List Nat) (block_size : Nat) : List Nat :=
  data ++ List.replicate (block_size - data.length % block_size)
    (block_size - data.length % block_size)

/-- `AESCryptoGCM.process_key`: the secret as bytes (UTF-8 encoded when it
is a `str`); the first 32 bytes when at least 32 long, otherwise
`pad(key, 32)`. -/
def process_key (key : List Nat) : List Nat :=
  if 32 ≤ key.length then key.take 32 else pad key 32

end AESCryptoGCM

/-- The AES-GCM primitive of pycryptodome for one fixed key, as an external
black box: `enc nonce plaintext` is the ciphertext stream of
`cipher.encrypt`, `dec nonce ciphertext` its inverse (`cipher.decrypt`),
and `mac header nonce ciphertext` the digest that `encrypt_and_digest`
returns and `decrypt_and_verify` compares the received tag against, after
`cipher.update(header)`. -/
structure GCMPrim where
  enc : List Nat → List Nat → List Nat
  dec : List Nat → List Nat → List Nat
  mac : List Nat → List Nat → List Nat → List Nat

namespace AESCryptoGCM

/-- `AESCryptoGCM.encrypt` for one call, with the randomness made explicit:
`header` models `get_random_bytes(16)` and `nonce` the fresh random nonce
that `AES.new(key, AES.MODE_GCM)` draws (16 bytes by default).  The result
is the concatenation of the independent base64 encodings of header, nonce,
tag and ciphertext. -/
def encrypt (P : GCMPrim) (header nonce text : List Nat) : List Nat :=
  base64.b64encode header ++ base64.b64encode nonce ++
    base64.b64encode (P.mac header nonce (P.enc nonce text)) ++
    base64.b64encode (P.enc nonce text)

/-- `AESCryptoGCM.decrypt`: `metadata = text[:72]`; base64-decode
`metadata[:24]`, `metadata[24:48]`, `metadata[48:]` and `text[72:]` into
header, nonce, tag and ciphertext (`binascii.Error`, a `ValueError`, on
malformed slices); then `decrypt_and_verify`, which recomputes the digest
of the ciphertext under the recovered header and nonce and raises
`ValueError("MAC check failed")` unless it equals the received tag. -/
def decrypt (P : GCMPrim) (text : List Nat) : Except PyErr (List Nat) :=
  let metadata := text.take 72
  match base64.b64decode (metadata.take 24) with
  | none => .error .binasciiError
  | some header =>
    match base64.b64decode ((metadata.drop 24).take 24) with
    | none => .error .binasciiError
    | some nonce =>
      match base64.b64decode (metadata.drop 48) with
      | none => .error .binasciiError
      | some tag =>
        match base64.b64decode (text.drop 72) with
        | none => .error .binasciiError
        | some ciphertext =>
          if tag = P.mac header nonce ciphertext
          then .ok (P.dec nonce ciphertext)
          else .error .macCheckFailed

end AESCryptoGCM

/-- The object `get_aes_crypto` returns: an `AESCrypto` or an
`AESCryptoGCM` instance, each remembering its processed key. -/
inductive AesCryptoObj where
  | ecb (key : List Nat)
  | gcm (key : List Nat)
  deriving DecidableEq, Repr

/-- `get_aes_crypto(key=None, mode=GCM-string)`: default the key to
`settings.SECRET_KEY`; assign the local `a` only when `mode` is exactly
the string ECB or the string GCM, and `return a` — any other mode reaches
the return with `a` unbound and raises `UnboundLocalError`. -/
def get_aes_crypto (secret_key : List Nat) (key : Option (List Nat))
    (mode : String) : Except PyErr AesCryptoObj :=
  let k := key.getD secret_key
  if mode = "ECB" then .ok (.ecb (AESCrypto.keyInit k))
  else if mode = "GCM" then .ok (.gcm (AESCryptoGCM.process_key k))
  else .error .unboundLocalError

/-- One registered codec of the facade, as the facade sees it: an object
with `encrypt` and `decrypt` methods that return text or raise. -/
structure Codec where
  enc : List Nat → Except PyErr (List Nat)
  dec : List Nat → Except PyErr (List Nat)

namespace Crypto

/-- `dict.pop(k, None)` on the (insertion-ordered) methods mapping: the
value stored at `k` (if any) and the mapping with that entry removed,
order preserved. -/
def dict_pop (d : List (String × Codec)) (k : String) :
    Option Codec × List (String × Codec) :=
  match d with
  | [] => (none, [])
  | (k₀, v) :: rest =>
    if k₀ = k then (some v, rest)
    else
      let r := dict_pop rest k
      (r.1, (k₀, v) :: r.2)

/-- `Crypto.__init__`: copy the class-level methods mapping, pop the codec
registered under the configured `SECURITY_DATA_CRYPTO_METHOD`; if the name
is absent raise `ImproperlyConfigured`, otherwise store
`[method, *methods.values()]` — the active codec first, the remaining
codecs in registration order. -/
def init (methods : List (String × Codec)) (active : String) :
    Except PyErr (List Codec) :=
  match dict_pop methods active with
  | (none, _) => .error .improperlyConfigured
  | (some m, rest) => .ok (m :: rest.map Prod.snd)

/-- `Crypto.encrypt`: `self.encryptor.encrypt(text)` where `encryptor` is
`self.methods[0]` (an empty list would raise `IndexError`; `__init__`
never produces one). -/
def encrypt (methods : List Codec) (text : List Nat) :
    Except PyErr (List Nat) :=
  match methods with
  | [] => .error .indexError
  | m :: _ => m.enc text

/-- `Crypto.decrypt`: try each codec in order; return the first successful
plaintext; on `(TypeError, ValueError, UnicodeDecodeError)` continue with
the next codec; any other exception propagates; falling off the loop
returns `None`. -/
def decrypt (methods : List Codec) (text : List Nat) :
    Except PyErr (Option (List Nat)) :=
  match methods with
  | [] => .ok none
  | m :: rest =>
    match m.dec text with
    | .ok p => .ok (some p)
    | .error e =>
      if e.caughtByFallback then decrypt rest text else .error e

end Crypto

namespace base64

theorem charSextet_sextetChar_ball :
    ∀ s, s < 64 → charSextet (sextetChar s) = some s := by decide

theorem charSextet_sextetChar {s : Nat} (h : s < 64) :
    charSextet (sextetChar s) = some s :=
  charSextet_sextetChar_ball s h

theorem sextetChar_ne_pad_ball : ∀ s, s < 64 → sextetChar s ≠ 61 := by decide

theorem sextetChar_ne_pad {s : Nat} (h : s < 64) : sextetChar s ≠ 61 :=
  sextetChar_ne_pad_ball s h

theorem decode_quad (s1 s2 s3 s4 : Nat) (rest : List Nat)
    (h1 : s1 < 64) (h2 : s2 < 64) (h3 : s3 < 64) (h4 : s4 < 64) :
    b64decode (sextetChar s1 :: sextetChar s2 :: sextetChar s3 ::
        sextetChar s4 :: rest) =
      (b64decode rest).map
        (fun t => (s1 * 4 + s2 / 16) :: (s2 % 16 * 16 + s3 / 4) ::
          (s3 % 4 * 64 + s4) :: t) := by
  simp only [b64decode, charSextet_sextetChar h1, charSextet_sextetChar h2,
    charSextet_sextetChar h3, charSextet_sextetChar h4,
    if_neg (sextetChar_ne_pad h3), if_neg (sextetChar_ne_pad h4)]
  cases b64decode rest <;> rfl

theorem decode_pad2 (s1 s2 : Nat) (h1 : s1 < 64) (h2 : s2 < 64) :
    b64decode [sextetChar s1, sextetChar s2, 61, 61] =
      some [s1 * 4 + s2 / 16] := by
  simp [b64decode, charSextet_sextetChar h1, charSextet_sextetChar h2]

theorem decode_pad1 (s1 s2 s3 : Nat) (h1 : s1 < 64) (h2 : s2 < 64)
    (h3 : s3 < 64) :
    b64decode [sextetChar s1, sextetChar s2, sextetChar s3, 61] =
      some [s1 * 4 + s2 / 16, s2 % 16 * 16 + s3 / 4] := by
  simp [b64decode, charSextet_sextetChar h1, charSextet_sextetChar h2,
    charSextet_sextetChar h3, if_neg (sextetChar_ne_pad h3)]

/-- base64 of `n` bytes is `4 * ceil(n / 3)` characters. -/
theorem b64encode_length (l : List Nat) :
    (b64encode l).length = (l.length + 2) / 3 * 4 := by
  induction l using b64encode.induct with
  | case1 a b c rest ih =>
    simp only [b64encode, List.length_cons, ih]
    omega
  | case2 a b => simp [b64encode]
  | case3 a => simp [b64encode]
  | case4 => rfl

/-- Decoding inverts encoding on byte sequences. -/
theorem b64decode_b64encode (l : List Nat) (h : ∀ x ∈ l, x < 256) :
    b64decode (b64encode l) = some l := by
  induction l using b64encode.induct with
  | case1 a b c rest ih =>
    have ha : a < 256 := h a (by simp)
    have hb : b < 256 := h b (by simp)
    have hc : c < 256 := h c (by simp)
    rw [b64encode, decode_quad _ _ _ _ _ (by omega) (by omega) (by omega)
      (by omega), ih (fun x hx => h x (by simp [hx]))]
    rw [Option.map_some']
    congr 1
    congr 1
    · omega
    congr 1
    · omega
    congr 1
    omega
  | case2 a b =>
    have ha : a < 256 := h a (by simp)
    have hb : b < 256 := h b (by simp)
    rw [b64encode, decode_pad1 _ _ _ (by omega) (by omega) (by omega)]
    congr 1
    congr 1
    · omega
    congr 1
    omega
  | case3 a =>
    have ha : a < 256 := h a (by simp)
    rw [b64encode, decode_pad2 _ _ (by omega) (by omega)]
    congr 1
    congr 1
    omega
  | case4 => rfl

/-- Encoding is injective on byte sequences. -/
theorem b64encode_inj {l₁ l₂ : List Nat} (h₁ : ∀ x ∈ l₁, x < 256)
    (h₂ : ∀ x ∈ l₂, x < 256) (h : b64encode l₁ = b64encode l₂) :
    l₁ = l₂ := by
  have := b64decode_b64encode l₁ h₁
  rw [h, b64decode_b64encode l₂ h₂] at this
  exact (Option.some_inj.mp this).symm

end base64

theorem take_len_append {α : Type} (A B : List α) {n : Nat}
    (h : A.length = n) : (A ++ B).take n = A := by
  subst h
  exact List.take_left A B

theorem drop_len_append {α : Type} (A B : List α) {n : Nat}
    (h : A.length = n) : (A ++ B).drop n = B := by
  subst h
  exact List.drop_left A B

theorem rstripZero_append_replicate (l : List Nat) (k : Nat) :
    rstripZero (l ++ List.replicate k 0) = rstripZero l := by
  unfold rstripZero
  rw [List.reverse_append, List.reverse_replicate]
  congr 1
  induction k with
  | zero => rfl
  | succ k ih =>
    rw [List.replicate_succ, List.cons_append, List.dropWhile_cons]
    simp only [beq_self_eq_true, if_true]
    exact ih

theorem rstripZero_eq_self {l : List Nat} (h : l.getLast? ≠ some 0) :
    rstripZero l = l := by
  unfold rstripZero
  cases hrev : l.reverse with
  | nil =>
    have : l = [] := by simpa using congrArg List.reverse hrev
    simp [this]
  | cons a t =>
    have hlast : l.getLast? = some a := by
      rw [← List.head?_reverse, hrev]
      rfl
    have ha : (a == 0) = false := by
      rcases eq_or_ne a 0 with h0 | h0
      · exact absurd (hlast.trans (by rw [h0])) h
      · simp [h0]
    have hl : l = (a :: t).reverse := by
      simpa using congrArg List.reverse hrev
    rw [List.dropWhile_cons, ha]
    simp [hl]

theorem dict_pop_absent (d : List (String × Codec)) (k : String)
    (h : ∀ kv ∈ d, kv.1 ≠ k) : Crypto.dict_pop d k = (none, d) := by
  induction d with
  | nil => rfl
  | cons kv rest ih =>
    obtain ⟨k₀, v⟩ := kv
    have hk : k₀ ≠ k := h (k₀, v) (by simp)
    simp [Crypto.dict_pop, hk, ih (fun kv hkv => h kv (by simp [hkv]))]

theorem dict_pop_present (pre : List (String × Codec)) (m : Codec)
    (post : List (String × Codec)) (k : String)
    (h : ∀ kv ∈ pre, kv.1 ≠ k) :
    Crypto.dict_pop (pre ++ (k, m) :: post) k = (some m, pre ++ post) := by
  induction pre with
  | nil => simp [Crypto.dict_pop]
  | cons kv pre ih =>
    obtain ⟨k₀, v⟩ := kv
    have hk : k₀ ≠ k := h (k₀, v) (by simp)
    simp [Crypto.dict_pop, hk, ih (fun kv hkv => h kv (by simp [hkv]))]

/-- A codec whose decrypt always raises `ValueError` (as every registered
codec does on ciphertext of a foreign scheme). -/
def failingCodec : Codec where
  enc := fun _ => .error .valueError
  dec := fun _ => .error .valueError

/-- A codec that always succeeds with a fixed output. -/
def stubCodec (out : List Nat) : Codec where
  enc := fun _ => .ok out
  dec := fun _ => .ok out

/-- A codec whose decrypt raises an exception outside
`(TypeError, ValueError, UnicodeDecodeError)`. -/
def abortingCodec : Codec where
  enc := fun _ => .error .otherError
  dec := fun _ => .error .otherError

/-- C1: `Crypto.decrypt` walks the codec list in order (the list
`Crypto.__init__` builds: active codec first, then the remaining codecs in
registration order — see `crypto_init_active_first_or_error`).  If every
codec before some codec `c` fails with one of the caught classes
(`TypeError`, `ValueError` — which covers `binascii.Error` decode failures
and the MAC-check `ValueError` — or `UnicodeDecodeError`), then: the
plaintext of `c` is returned as soon as `c.decrypt` succeeds, and an
exception of any other class raised by `c` propagates immediately. -/
theorem crypto_decrypt_fallback_first_success
    (pre : List Codec) (c : Codec) (rest : List Codec) (text : List Nat)
    (hpre : ∀ d ∈ pre, ∃ e, d.dec text = .error e ∧
      e.caughtByFallback = true) :
    (∀ p, c.dec text = .ok p →
      Crypto.decrypt (pre ++ c :: rest) text = .ok (some p)) ∧
    (∀ e, c.dec text = .error e → e.caughtByFallback = false →
      Crypto.decrypt (pre ++ c :: rest) text = .error e) := by
  induction pre with
  | nil =>
    constructor
    · intro p hp
      simp [Crypto.decrypt, hp]
    · intro e he hne
      simp [Crypto.decrypt, he, hne]
  | cons d pre ih =>
    obtain ⟨e₀, he₀, hc₀⟩ := hpre d (by simp)
    have ih' := ih (fun d hd => hpre d (by simp [hd]))
    constructor
    · intro p hp
      simpa [Crypto.decrypt, he₀, hc₀] using ih'.1 p hp
    · intro e he hne
      simpa [Crypto.decrypt, he₀, hc₀] using ih'.2 e he hne

theorem crypto_decrypt_fallback_first_success_witness :
    Crypto.decrypt [failingCodec, stubCodec [42]] [7] = .ok (some [42]) ∧
    Crypto.decrypt [failingCodec, abortingCodec] [7] =
      .error .otherError := by
  have hpre : ∀ d ∈ [failingCodec], ∃ e, d.dec [7] = .error e ∧
      e.caughtByFallback = true := by
    intro d hd
    rw [List.mem_singleton.mp hd]
    exact ⟨.valueError, rfl, rfl⟩
  exact ⟨(crypto_decrypt_fallback_first_success [failingCodec]
      (stubCodec [42]) [] [7] hpre).1 [42] rfl,
    (crypto_decrypt_fallback_first_success [failingCodec]
      abortingCodec [] [7] hpre).2 .otherError rfl rfl⟩

/-- C3: when every registered codec's decrypt raises one of the caught
(recoverable) classes, the loop in `Crypto.decrypt` falls through and the
function returns `None` — an absent result, not a raised exception. -/
theorem crypto_decrypt_exhaustion_returns_none
    (methods : List Codec) (text : List Nat)
    (hall : ∀ d ∈ methods, ∃ e, d.dec text = .error e ∧
      e.caughtByFallback = true) :
    Crypto.decrypt methods text = .ok none := by
  induction methods with
  | nil => rfl
  | cons d rest ih =>
    obtain ⟨e, he, hc⟩ := hall d (by simp)
    simp [Crypto.decrypt, he, hc, ih (fun d hd => hall d (by simp [hd]))]

theorem crypto_decrypt_exhaustion_returns_none_witness :
    Crypto.decrypt [failingCodec, failingCodec] [9] = .ok none := by
  refine crypto_decrypt_exhaustion_returns_none _ _ (fun d hd => ?_)
  have : d = failingCodec := by
    rcases List.mem_cons.mp hd with h | h
    · exact h
    · exact List.mem_singleton.mp h
  rw [this]
  exact ⟨.valueError, rfl, rfl⟩

/-- C4: `Crypto.__init__` with an active-method name absent from the
methods mapping raises `ImproperlyConfigured` and builds nothing; with the
name present, the built list is the active codec followed by every other
registered codec in registration order. -/
theorem crypto_init_active_first_or_error
    (methods : List (String × Codec)) (active : String) :
    ((∀ kv ∈ methods, kv.1 ≠ active) →
      Crypto.init methods active = .error .improperlyConfigured) ∧
    (∀ pre m post, methods = pre ++ (active, m) :: post →
      (∀ kv ∈ pre, kv.1 ≠ active) →
      Crypto.init methods active =
        .ok (m :: (pre ++ post).map Prod.snd)) := by
  constructor
  · intro h
    rw [Crypto.init, dict_pop_absent methods active h]
  · intro pre m post hsplit hpre
    rw [Crypto.init, hsplit, dict_pop_present pre m post active hpre]

/-- The class-level `Crypto.methods` mapping, in source order, for given
codec instances. -/
def cryptoMethods (ecb aes sm2 : Codec) : List (String × Codec) :=
  [("aes_ecb", ecb), ("aes", aes), ("gm_sm2", sm2)]

theorem crypto_init_active_first_or_error_witness :
    Crypto.init (cryptoMethods failingCodec (stubCodec [1]) abortingCodec)
        "rsa" = .error .improperlyConfigured ∧
    Crypto.init (cryptoMethods failingCodec (stubCodec [1]) abortingCodec)
        "aes" = .ok [stubCodec [1], failingCodec, abortingCodec] := by
  constructor
  · refine (crypto_init_active_first_or_error _ "rsa").1 (fun kv hkv => ?_)
    fin_cases hkv <;> decide
  · refine (crypto_init_active_first_or_error _ "aes").2
      [("aes_ecb", failingCodec)] (stubCodec [1])
      [("gm_sm2", abortingCodec)] rfl (fun kv hkv => ?_)
    fin_cases hkv
    decide

/-- C5: `Crypto.encrypt` is exactly `self.methods[0].encrypt(text)`: it
consults only the active (position-0) codec, so a success or an exception
of the active codec is returned or propagated unchanged and no other codec
is tried. -/
theorem crypto_encrypt_delegates_to_active (m : Codec) (rest : List Codec)
    (text : List Nat) : Crypto.encrypt (m :: rest) text = m.enc text := rfl

/-- C2 counterexample: the claim says a short secret is right-padded with
zero bytes to 32 bytes; `process_key` of the one-byte secret `k` (byte
107) actually pads with 31 bytes of value 31 (`Crypto.Util.Padding.pad`
defaults to pkcs7 style), not with zero bytes. -/
theorem process_key_not_zero_padded :
    AESCryptoGCM.process_key [107] ≠ [107] ++ List.replicate 31 0 := by
  decide

/-- C2 (amended): `process_key` takes the secret's bytes (UTF-8 encoding a
`str` argument first); a secret of at least 32 bytes is truncated to its
first 32 bytes; a shorter one is right-padded with pkcs7 padding — each
appended byte equals the number `32 - length` of appended bytes — to
exactly 32 bytes; the result is always exactly 32 bytes. -/
theorem process_key_truncate_or_pkcs7 (key : List Nat) :
    (32 ≤ key.length → AESCryptoGCM.process_key key = key.take 32) ∧
    (key.length < 32 →
      AESCryptoGCM.process_key key =
        key ++ List.replicate (32 - key.length) (32 - key.length)) ∧
    (AESCryptoGCM.process_key key).length = 32 := by
  refine ⟨fun h => by simp [AESCryptoGCM.process_key, h], fun h => ?_, ?_⟩
  · have hm : key.length % 32 = key.length := Nat.mod_eq_of_lt h
    simp [AESCryptoGCM.process_key, AESCryptoGCM.pad, hm,
      Nat.not_le.mpr h]
  · by_cases h : 32 ≤ key.length
    · simp [AESCryptoGCM.process_key, h]
    · simp [AESCryptoGCM.process_key, AESCryptoGCM.pad, h]
      omega

theorem process_key_truncate_or_pkcs7_witness :
    AESCryptoGCM.process_key (List.replicate 40 7) =
      (List.replicate 40 7).take 32 ∧
    AESCryptoGCM.process_key [107] = [107] ++ List.replicate 31 31 :=
  ⟨(process_key_truncate_or_pkcs7 (List.replicate 40 7)).1 (by decide),
   (process_key_truncate_or_pkcs7 [107]).2.1 (by decide)⟩

/-- C10: `get_aes_crypto` assigns its local `a` only under
`mode == 'ECB'` or `mode == 'GCM'`; any other mode string reaches
`return a` with `a` unassigned and raises `UnboundLocalError` — neither a
codec nor a configuration error.  The exact strings ECB and GCM select the
`AESCrypto` and `AESCryptoGCM` instances built from the given key
(defaulted to `settings.SECRET_KEY`). -/
theorem get_aes_crypto_mode_dispatch (secret_key : List Nat)
    (key : Option (List Nat)) (mode : String) :
    (mode ≠ "ECB" → mode ≠ "GCM" →
      get_aes_crypto secret_key key mode = .error .unboundLocalError) ∧
    get_aes_crypto secret_key key "ECB" =
      .ok (.ecb (AESCrypto.keyInit (key.getD secret_key))) ∧
    get_aes_crypto secret_key key "GCM" =
      .ok (.gcm (AESCryptoGCM.process_key (key.getD secret_key))) := by
  refine ⟨fun h1 h2 => ?_, rfl, rfl⟩
  simp [get_aes_crypto, h1, h2]

theorem get_aes_crypto_mode_dispatch_witness :
    get_aes_crypto [1, 2] none "CBC" = .error .unboundLocalError :=
  (get_aes_crypto_mode_dispatch [1, 2] none "CBC").1
    (by decide) (by decide)

theorem b64encode_len24 {l : List Nat} (h : l.length = 16) :
    (base64.b64encode l).length = 24 := by
  rw [base64.b64encode_length, h]

/-- Slice arithmetic of the envelope `A ++ B ++ C ++ D` when the first
three pieces are 24 characters each. -/
theorem envelope_slices (A B C D : List Nat)
    (hA : A.length = 24) (hB : B.length = 24) (hC : C.length = 24) :
    (A ++ (B ++ (C ++ D))).take 72 = A ++ (B ++ C) ∧
    (A ++ (B ++ C)).take 24 = A ∧
    ((A ++ (B ++ C)).drop 24).take 24 = B ∧
    (A ++ (B ++ C)).drop 48 = C ∧
    (A ++ (B ++ (C ++ D))).drop 72 = D := by
  have hsplit : A ++ (B ++ (C ++ D)) = (A ++ (B ++ C)) ++ D := by
    simp [List.append_assoc]
  have h72 : (A ++ (B ++ C)).length = 72 := by
    simp [hA, hB, hC]
  refine ⟨?_, take_len_append A (B ++ C) hA, ?_, ?_, ?_⟩
  · rw [hsplit, take_len_append _ D h72]
  · rw [drop_len_append A (B ++ C) hA, take_len_append B C hB]
  · have : A ++ (B ++ C) = (A ++ B) ++ C := by
      simp [List.append_assoc]
    rw [this, drop_len_append (A ++ B) C (by simp [hA, hB])]
  · rw [hsplit, drop_len_append _ D h72]

/-- Shared workhorse for the envelope claims: the four slices of the
envelope produced by `AESCryptoGCM.encrypt` decode back to the four raw
fields, and `AESCryptoGCM.decrypt` therefore verifies the genuine tag and
returns the deciphered ciphertext. -/
theorem gcm_envelope_decodes (P : GCMPrim) (header nonce text : List Nat)
    (hh16 : header.length = 16) (hn16 : nonce.length = 16)
    (ht16 : (P.mac header nonce (P.enc nonce text)).length = 16)
    (hhb : ∀ x ∈ header, x < 256) (hnb : ∀ x ∈ nonce, x < 256)
    (htb : ∀ x ∈ P.mac header nonce (P.enc nonce text), x < 256)
    (hcb : ∀ x ∈ P.enc nonce text, x < 256) :
    base64.b64decode
        (((AESCryptoGCM.encrypt P header nonce text).take 72).take 24) =
      some header ∧
    base64.b64decode
        ((((AESCryptoGCM.encrypt P header nonce text).take 72).drop
          24).take 24) = some nonce ∧
    base64.b64decode
        (((AESCryptoGCM.encrypt P header nonce text).take 72).drop 48) =
      some (P.mac header nonce (P.enc nonce text)) ∧
    base64.b64decode ((AESCryptoGCM.encrypt P header nonce text).drop 72) =
      some (P.enc nonce text) ∧
    AESCryptoGCM.decrypt P (AESCryptoGCM.encrypt P header nonce text) =
      .ok (P.dec nonce (P.enc nonce text)) := by
  obtain ⟨s72, sh, sn, st, sc⟩ := envelope_slices (base64.b64encode header)
    (base64.b64encode nonce)
    (base64.b64encode (P.mac header nonce (P.enc nonce text)))
    (base64.b64encode (P.enc nonce text))
    (b64encode_len24 hh16) (b64encode_len24 hn16) (b64encode_len24 ht16)
  have hout : AESCryptoGCM.encrypt P header nonce text =
      base64.b64encode header ++ (base64.b64encode nonce ++
        (base64.b64encode (P.mac header nonce (P.enc nonce text)) ++
          base64.b64encode (P.enc nonce text))) := by
    simp only [AESCryptoGCM.encrypt, List.append_assoc]
  have e1 : base64.b64decode
      (((AESCryptoGCM.encrypt P header nonce text).take 72).take 24) =
      some header := by
    rw [hout, s72, sh, base64.b64decode_b64encode header hhb]
  have e2 : base64.b64decode
      ((((AESCryptoGCM.encrypt P header nonce text).take 72).drop
        24).take 24) = some nonce := by
    rw [hout, s72, sn, base64.b64decode_b64encode nonce hnb]
  have e3 : base64.b64decode
      (((AESCryptoGCM.encrypt P header nonce text).take 72).drop 48) =
      some (P.mac header nonce (P.enc nonce text)) := by
    rw [hout, s72, st, base64.b64decode_b64encode _ htb]
  have e4 : base64.b64decode
      ((AESCryptoGCM.encrypt P header nonce text).drop 72) =
      some (P.enc nonce text) := by
    rw [hout, sc, base64.b64decode_b64encode _ hcb]
  refine ⟨e1, e2, e3, e4, ?_⟩
  simp only [AESCryptoGCM.decrypt, e1, e2, e3, e4]
  simp

/-- A concrete `GCMPrim` instance used to evaluate the envelope theorems:
ciphertext equals plaintext and the digest is sixteen zero bytes.  The
framing and slicing facts proved about `AESCryptoGCM.encrypt`/`decrypt`
hold for every primitive; this one makes them computable. -/
def toyGCM : GCMPrim where
  enc := fun _ p => p
  dec := fun _ c => c
  mac := fun _ _ _ => List.replicate 16 0

/-- C6: with a 16-byte header, the default 16-byte random nonce and the
16-byte digest of pycryptodome, `AESCryptoGCM.encrypt` emits
`b64(header) ++ b64(nonce) ++ b64(tag) ++ b64(ciphertext)` where each of
the first three encodings is exactly 24 characters, so the slices
`[0,24)`, `[24,48)`, `[48,72)` of the first 72 characters decode to
exactly the 16-byte header, nonce and tag whatever the plaintext length,
and `[72,end)` decodes to the ciphertext; `AESCryptoGCM.decrypt` splits at
exactly those offsets and recovers the four fields. -/
theorem gcm_envelope_framing (P : GCMPrim) (header nonce text : List Nat)
    (hh16 : header.length = 16) (hn16 : nonce.length = 16)
    (ht16 : (P.mac header nonce (P.enc nonce text)).length = 16)
    (hhb : ∀ x ∈ header, x < 256) (hnb : ∀ x ∈ nonce, x < 256)
    (htb : ∀ x ∈ P.mac header nonce (P.enc nonce text), x < 256)
    (hcb : ∀ x ∈ P.enc nonce text, x < 256) :
    AESCryptoGCM.encrypt P header nonce text =
      base64.b64encode header ++ (base64.b64encode nonce ++
        (base64.b64encode (P.mac header nonce (P.enc nonce text)) ++
          base64.b64encode (P.enc nonce text))) ∧
    (base64.b64encode header).length = 24 ∧
    (base64.b64encode nonce).length = 24 ∧
    (base64.b64encode (P.mac header nonce (P.enc nonce text))).length =
      24 ∧
    base64.b64decode
        (((AESCryptoGCM.encrypt P header nonce text).take 72).take 24) =
      some header ∧
    base64.b64decode
        ((((AESCryptoGCM.encrypt P header nonce text).take 72).drop
          24).take 24) = some nonce ∧
    base64.b64decode
        (((AESCryptoGCM.encrypt P header nonce text).take 72).drop 48) =
      some (P.mac header nonce (P.enc nonce text)) ∧
    base64.b64decode ((AESCryptoGCM.encrypt P header nonce text).drop 72) =
      some (P.enc nonce text) ∧
    AESCryptoGCM.decrypt P (AESCryptoGCM.encrypt P header nonce text) =
      .ok (P.dec nonce (P.enc nonce text)) := by
  obtain ⟨e1, e2, e3, e4, e5⟩ := gcm_envelope_decodes P header nonce text
    hh16 hn16 ht16 hhb hnb htb hcb
  exact ⟨by simp only [AESCryptoGCM.encrypt, List.append_assoc],
    b64encode_len24 hh16, b64encode_len24 hn16, b64encode_len24 ht16,
    e1, e2, e3, e4, e5⟩

theorem gcm_envelope_framing_witness :
    AESCryptoGCM.decrypt toyGCM
        (AESCryptoGCM.encrypt toyGCM (List.replicate 16 2)
          (List.replicate 16 3) [104, 105]) =
      .ok (toyGCM.dec (List.replicate 16 3)
        (toyGCM.enc (List.replicate 16 3) [104, 105])) :=
  (gcm_envelope_framing toyGCM (List.replicate 16 2) (List.replicate 16 3)
    [104, 105] (by decide) (by decide) (by decide) (by decide) (by decide)
    (by decide) (by decide)).2.2.2.2.2.2.2.2

/-- C8: whenever the primitive inverts its own ciphertext
(`cipher.decrypt` undoes `cipher.encrypt` under the same nonce — the
contract of AES-GCM), decrypting the envelope that `AESCryptoGCM.encrypt`
produced returns the original plaintext; and two encryptions of the same
plaintext whose freshly drawn 16-byte random header or nonce differ (the
event cryptographic random generation guarantees) yield different
envelopes, because base64 is injective on the fixed-width header and nonce
slices. -/
theorem gcm_roundtrip_and_fresh (P : GCMPrim)
    (h₁ n₁ h₂ n₂ text : List Nat)
    (hh1 : h₁.length = 16) (hn1 : n₁.length = 16)
    (hh2 : h₂.length = 16) (hn2 : n₂.length = 16)
    (hb1 : ∀ x ∈ h₁, x < 256) (hbn1 : ∀ x ∈ n₁, x < 256)
    (hb2 : ∀ x ∈ h₂, x < 256) (hbn2 : ∀ x ∈ n₂, x < 256)
    (ht16 : (P.mac h₁ n₁ (P.enc n₁ text)).length = 16)
    (htb : ∀ x ∈ P.mac h₁ n₁ (P.enc n₁ text), x < 256)
    (hcb : ∀ x ∈ P.enc n₁ text, x < 256)
    (hinv : P.dec n₁ (P.enc n₁ text) = text)
    (hfresh : h₁ ≠ h₂ ∨ n₁ ≠ n₂) :
    AESCryptoGCM.decrypt P (AESCryptoGCM.encrypt P h₁ n₁ text) =
      .ok text ∧
    AESCryptoGCM.encrypt P h₁ n₁ text ≠
      AESCryptoGCM.encrypt P h₂ n₂ text := by
  obtain ⟨-, -, -, -, e5⟩ := gcm_envelope_decodes P h₁ n₁ text
    hh1 hn1 ht16 hb1 hbn1 htb hcb
  constructor
  · rw [e5, hinv]
  · intro heq
    have hA1 : (base64.b64encode h₁).length = 24 := b64encode_len24 hh1
    have hA2 : (base64.b64encode h₂).length = 24 := b64encode_len24 hh2
    have ho1 : AESCryptoGCM.encrypt P h₁ n₁ text =
        base64.b64encode h₁ ++ (base64.b64encode n₁ ++
          (base64.b64encode (P.mac h₁ n₁ (P.enc n₁ text)) ++
            base64.b64encode (P.enc n₁ text))) := by
      simp only [AESCryptoGCM.encrypt, List.append_assoc]
    have ho2 : AESCryptoGCM.encrypt P h₂ n₂ text =
        base64.b64encode h₂ ++ (base64.b64encode n₂ ++
          (base64.b64encode (P.mac h₂ n₂ (P.enc n₂ text)) ++
            base64.b64encode (P.enc n₂ text))) := by
      simp only [AESCryptoGCM.encrypt, List.append_assoc]
    have htake := congrArg (List.take 24) heq
    rw [ho1, ho2, take_len_append _ _ hA1, take_len_append _ _ hA2]
      at htake
    have hhead : h₁ = h₂ := base64.b64encode_inj hb1 hb2 htake
    have hdrop := congrArg (fun l => (l.drop 24).take 24) heq
    simp only [ho1, ho2] at hdrop
    rw [drop_len_append _ _ hA1, drop_len_append _ _ hA2,
      take_len_append _ _ (b64encode_len24 hn1),
      take_len_append _ _ (b64encode_len24 hn2)] at hdrop
    have hnonce : n₁ = n₂ := base64.b64encode_inj hbn1 hbn2 hdrop
    rcases hfresh with h | h
    · exact h hhead
    · exact h hnonce

theorem gcm_roundtrip_and_fresh_witness :
    AESCryptoGCM.decrypt toyGCM
        (AESCryptoGCM.encrypt toyGCM (List.replicate 16 0)
          (List.replicate 16 0) [104, 105]) = .ok [104, 105] ∧
    AESCryptoGCM.encrypt toyGCM (List.replicate 16 0)
        (List.replicate 16 0) [104, 105] ≠
      AESCryptoGCM.encrypt toyGCM (List.replicate 16 1)
        (List.replicate 16 0) [104, 105] :=
  gcm_roundtrip_and_fresh toyGCM (List.replicate 16 0)
    (List.replicate 16 0) (List.replicate 16 1) (List.replicate 16 0)
    [104, 105] (by decide) (by decide) (by decide) (by decide) (by decide)
    (by decide) (by decide) (by decide) (by decide) (by decide) (by decide)
    rfl (Or.inl (by decide))

/-- C9 counterexample: the claim says flipping any byte within the tag
portion (characters `[48,72)`) makes decrypt fail.  In the envelope of the
plaintext bytes `[104, 105]` under a primitive with an all-zero digest,
character 69 — inside the tag portion — is the character before the
base64 padding of the tag slice; `b64decode` ignores its low four bits, so
changing it from code 65 to 66 leaves the decoded tag unchanged and
decrypt still succeeds with the original plaintext.  (The decoded slices
are unchanged, so decrypt behaves identically for every primitive, the
real AES-GCM included.) -/
theorem gcm_tamper_byte_flip_counterexample :
    (AESCryptoGCM.encrypt toyGCM (List.replicate 16 0)
        (List.replicate 16 0) [104, 105]).set 69 66 ≠
      AESCryptoGCM.encrypt toyGCM (List.replicate 16 0)
        (List.replicate 16 0) [104, 105] ∧
    AESCryptoGCM.decrypt toyGCM
        ((AESCryptoGCM.encrypt toyGCM (List.replicate 16 0)
          (List.replicate 16 0) [104, 105]).set 69 66) =
      .ok [104, 105] := by
  exact ⟨by decide, rfl⟩

/-- C9 (amended): a modification confined to the tag portion (characters
`[48,72)`) and/or ciphertext portion (characters `[72,end)`) of an
envelope produced by `AESCryptoGCM.encrypt` makes decrypt fail with the
authentication failure `ValueError("MAC check failed")` whenever the
modified slices still base64-decode but the decoded tag is not the
cipher's digest of the decoded ciphertext — in particular whenever the
decoded tag or ciphertext bytes actually changed and the pair does not
forge the digest.  (A modification that changes only the base64 padding
bits decodes to the same bytes and decrypt still succeeds — see the
counterexample.)  Moreover decrypt never returns corrupted plaintext: any
successful decrypt is the decipherment of a ciphertext whose decoded tag
equals the digest recomputed over it. -/
theorem gcm_tamper_authentication (P : GCMPrim)
    (header nonce text env2 tag2 ct2 : List Nat)
    (hh16 : header.length = 16) (hn16 : nonce.length = 16)
    (hhb : ∀ x ∈ header, x < 256) (hnb : ∀ x ∈ nonce, x < 256)
    (hkeep : env2.take 48 =
      (AESCryptoGCM.encrypt P header nonce text).take 48)
    (htag2 : base64.b64decode ((env2.take 72).drop 48) = some tag2)
    (hct2 : base64.b64decode (env2.drop 72) = some ct2)
    (hne : tag2 ≠ P.mac header nonce ct2) :
    AESCryptoGCM.decrypt P env2 = .error .macCheckFailed ∧
    (∀ s p, AESCryptoGCM.decrypt P s = .ok p → ∃ h₀ n₀ t₀ c₀,
      base64.b64decode ((s.take 72).take 24) = some h₀ ∧
      base64.b64decode (((s.take 72).drop 24).take 24) = some n₀ ∧
      base64.b64decode ((s.take 72).drop 48) = some t₀ ∧
      base64.b64decode (s.drop 72) = some c₀ ∧
      t₀ = P.mac h₀ n₀ c₀ ∧ p = P.dec n₀ c₀) := by
  have hA : (base64.b64encode header).length = 24 := b64encode_len24 hh16
  have hB : (base64.b64encode nonce).length = 24 := b64encode_len24 hn16
  have henv48 : (AESCryptoGCM.encrypt P header nonce text).take 48 =
      base64.b64encode header ++ base64.b64encode nonce := by
    have ho : AESCryptoGCM.encrypt P header nonce text =
        (base64.b64encode header ++ base64.b64encode nonce) ++
          (base64.b64encode (P.mac header nonce (P.enc nonce text)) ++
            base64.b64encode (P.enc nonce text)) := by
      simp only [AESCryptoGCM.encrypt, List.append_assoc]
    rw [ho, take_len_append _ _ (by simp [hA, hB])]
  have hkeep' : env2.take 48 =
      base64.b64encode header ++ base64.b64encode nonce :=
    hkeep.trans henv48
  have hlen2 : 48 ≤ env2.length := by
    have := congrArg List.length hkeep'
    simp [hA, hB] at this
    omega
  have e1 : base64.b64decode ((env2.take 72).take 24) = some header := by
    have h24 : (env2.take 72).take 24 = (env2.take 48).take 24 := by
      simp [List.take_take]
    rw [h24, hkeep', take_len_append _ _ hA,
      base64.b64decode_b64encode header hhb]
  have e2 : base64.b64decode (((env2.take 72).drop 24).take 24) =
      some nonce := by
    have hsplit : env2.take 72 = env2.take 48 ++ (env2.drop 48).take 24 := by
      rw [show (72 : Nat) = 48 + 24 from rfl, List.take_add]
    have hd : (env2.take 72).drop 24 =
        (env2.take 48).drop 24 ++ (env2.drop 48).take 24 := by
      rw [hsplit, List.drop_append_of_le_length (by simp [hlen2])]
    rw [hd, hkeep', drop_len_append _ _ hA,
      take_len_append _ _ hB, base64.b64decode_b64encode nonce hnb]
  constructor
  · simp only [AESCryptoGCM.decrypt, e1, e2, htag2, hct2]
    simp [hne]
  · intro s p hp
    simp only [AESCryptoGCM.decrypt] at hp
    split at hp
    · exact absurd hp (by simp)
    · rename_i h₀ hh
      split at hp
      · exact absurd hp (by simp)
      · rename_i n₀ hn
        split at hp
        · exact absurd hp (by simp)
        · rename_i t₀ ht
          split at hp
          · exact absurd hp (by simp)
          · rename_i c₀ hc
            split at hp
            · rename_i hmac
              injection hp with hpl
              exact ⟨h₀, n₀, t₀, c₀, hh, hn, ht, hc, hmac, hpl.symm⟩
            · exact absurd hp (by simp)

theorem gcm_tamper_authentication_witness :
    AESCryptoGCM.decrypt toyGCM
        ((AESCryptoGCM.encrypt toyGCM (List.replicate 16 0)
          (List.replicate 16 0) [104, 105]).set 48 66) =
      .error .macCheckFailed :=
  (gcm_tamper_authentication toyGCM (List.replicate 16 0)
    (List.replicate 16 0) [104, 105]
    ((AESCryptoGCM.encrypt toyGCM (List.replicate 16 0)
      (List.replicate 16 0) [104, 105]).set 48 66)
    (4 :: List.replicate 15 0) [104, 105]
    (by decide) (by decide) (by decide) (by decide)
    (by decide) (by decide) (by decide) (by decide)).1

/-- C7: for a plaintext whose byte sequence does not end in a zero byte,
`AESCrypto.decrypt` undoes `AESCrypto.encrypt` under any key for which the
AES-ECB primitive `D` inverts `E` (the contract of AES): encrypt zero-pads
the plaintext to a 16-byte multiple with `to_16`, enciphers (ECB:
deterministic, no IV) and base64-encodes; decrypt base64-decodes,
deciphers, right-strips the trailing zero bytes — recovering exactly the
original because it had no trailing zero of its own — and UTF-8-decodes. -/
theorem aes_ecb_roundtrip (E D : List Nat → List Nat) (p : List Nat)
    (hinv : D (E (AESCrypto.to_16 p)) = AESCrypto.to_16 p)
    (hbytes : ∀ x ∈ E (AESCrypto.to_16 p), x < 256)
    (hlast : p.getLast? ≠ some 0) :
    AESCrypto.decrypt D (AESCrypto.encrypt E p) = .ok p := by
  simp only [AESCrypto.encrypt, AESCrypto.decrypt,
    base64.b64decode_b64encode _ hbytes, hinv]
  rw [AESCrypto.to_16, rstripZero_append_replicate,
    rstripZero_eq_self hlast]

theorem aes_ecb_roundtrip_witness :
    AESCrypto.decrypt id (AESCrypto.encrypt id [104, 105]) =
      .ok [104, 105] :=
  aes_ecb_roundtrip id id [104, 105] rfl (by decide) (by decide)
